import Mathlib

/-!
Verification of the link command of `ckeditor5-link`
(`src/packages/ckeditor5-link/src/linkcommand.js`).

The command operates over the host document model (owned by the engine,
an external collaborator): we shallowly embed the document as a flat list
of atomic items, each either one character of a text run carrying an
optional `linkHref` attribute value, or an atomic element.  Positions are
natural-number indices between items; a range is a pair of positions.

Engine services that the command calls but that are not part of the
command's source (selection attribute resolution, `schema.getValidRanges`,
`schema.checkAttributeInSelection`, the schema guard on `batch.insert`)
and the sibling module `findlinkrange.js` are modelled from the spec;
each such definition says so in its doc comment.
-/

namespace Link

/-- One atomic item of the flat document: a single character of a text
node together with the optional `linkHref` attribute value it carries,
or an atomic (non-text) element of a given kind, which may also carry
an optional `linkHref` attribute value. -/
inductive Item : Type
  | char (c : Char) (attr : Option String)
  | elem (kind : String) (attr : Option String)
deriving DecidableEq, Repr

/-- The document: an ordered flat list of items. -/
abbrev Doc := List Item

/-- A range: a pair of positions (indices between items), denoting the
span of items with indices in `[s, e)`.  Collapsed when `s = e`. -/
structure MRange : Type where
  s : Nat
  e : Nat
deriving DecidableEq, Repr

/-- The selection: a list of ranges, as in the engine's selection model. -/
structure Sel : Type where
  ranges : List MRange
deriving DecidableEq, Repr

/-- Engine `selection.isCollapsed`: exactly one range and it is collapsed. -/
def Sel.isCollapsed (sel : Sel) : Bool :=
  match sel.ranges with
  | [r] => r.s == r.e
  | _ => false

/-- Engine `selection.getFirstPosition()`: the start of the first range
(`0` for an empty selection, which the command never queries). -/
def Sel.firstPos (sel : Sel) : Nat :=
  match sel.ranges with
  | r :: _ => r.s
  | [] => 0

/-- Whether an item is one character of a text run carrying the attribute
with exactly the value `v`. -/
def isLinkChar (it : Item) (v : String) : Bool :=
  match it with
  | Item.char _ (some w) => w == v
  | _ => false

/-- Modelled from the spec: the engine resolves a collapsed selection's
attributes from the surrounding text — the text node directly before the
caret when there is one, otherwise the text node directly after, and
no attribute when neither neighbour is text. -/
def surroundAttr (doc : Doc) (p : Nat) : Option String :=
  match (if p = 0 then none else doc[p - 1]?) with
  | some (Item.char _ a) => a
  | _ =>
    match doc[p]? with
    | some (Item.char _ a) => a
    | _ => none

/-- Modelled from the spec: `selection.getAttribute('linkHref')` — the
attribute at the selection's leading edge (its first position). -/
def selGetAttr (doc : Doc) (sel : Sel) : Option String :=
  surroundAttr doc sel.firstPos

/-- The external schema collaborator, kept abstract: which items may
legally carry the attribute, whether a link text node may be inserted at
a position of a document, and the engine's selection-level attribute
permission query. -/
structure Schema : Type where
  attrAllowed : Item → Bool
  insertAllowedAt : Doc → Nat → Bool
  checkAttrInSelection : Doc → Sel → Bool

/-- Whether the schema allows the attribute on the item at index `i`
(false past the end of the document). -/
def allowedAt (sch : Schema) (doc : Doc) (i : Nat) : Bool :=
  match doc[i]? with
  | some it => sch.attrAllowed it
  | none => false

/-- Setting the `linkHref` attribute on one item. -/
def setAttrItem (v : String) : Item → Item
  | Item.char c _ => Item.char c (some v)
  | Item.elem k _ => Item.elem k (some v)

/-- Setting the attribute on every item with index in `[s, e)`, carrying
the index `i` of the head of the remaining list. -/
def setAttrFrom (v : String) (s e : Nat) : Nat → List Item → List Item
  | _, [] => []
  | i, it :: rest =>
    (if s ≤ i ∧ i < e then setAttrItem v it else it) :: setAttrFrom v s e (i + 1) rest

/-- Engine `batch.setAttribute(range, 'linkHref', v)` on the flat model:
set the attribute on every item inside the range. -/
def setAttrRange (doc : Doc) (r : MRange) (v : String) : Doc :=
  setAttrFrom v r.s r.e 0 doc

/-- The text node `new Text(s, \x7b linkHref: v \x7d)` as a list of items. -/
def mkLink (s v : String) : List Item :=
  s.data.map (fun c => Item.char c (some v))

/-- Engine `batch.insert(position, node)` on the flat model: splice the
node's items in at the position. -/
def insertText (doc : Doc) (p : Nat) (s v : String) : Doc :=
  doc.take p ++ (mkLink s v ++ doc.drop p)

/-- Length of the backward walk of the Range Expander.

Modelled from the spec: `findlinkrange.js` walks backward from the
position while the adjacent node is text and carries the attribute with a
value equal to `v`, stopping at the first non-text or differently-valued
neighbour or at the document boundary, and returns the earliest boundary
reached. -/
def walkBack (doc : Doc) (v : String) : Nat → Nat
  | 0 => 0
  | p + 1 =>
    match doc[p]? with
    | some it => if isLinkChar it v then walkBack doc v p else p + 1
    | none => p + 1

/-- The number of leading items of a list that are text carrying the
attribute with value `v`. -/
def countRun (v : String) : List Item → Nat
  | [] => 0
  | it :: rest => if isLinkChar it v then countRun v rest + 1 else 0

/-- Modelled from the spec: the forward walk of `findlinkrange.js`,
symmetric to the backward walk. -/
def walkFwd (doc : Doc) (v : String) (p : Nat) : Nat :=
  p + countRun v (doc.drop p)

/-- Modelled from the spec: `findLinkRange(position, value)` — the maximal
contiguous range of text around the position carrying the attribute with
exactly the value `v`; a pure query, no mutation. -/
def findLinkRange (doc : Doc) (p : Nat) (v : String) : MRange :=
  MRange.mk (walkBack doc v p) (walkFwd doc v p)

/-- Scan underlying `schema.getValidRanges`: walk the indices `[pos, pos + n)`
with `cur` holding the start of the currently open legal run, emitting a
range each time a run closes. -/
def validRunsAux (sch : Schema) (doc : Doc) : Nat → Nat → Option Nat → List MRange
  | 0, _, none => []
  | 0, pos, some st => [MRange.mk st pos]
  | n + 1, pos, none =>
    if allowedAt sch doc pos then validRunsAux sch doc n (pos + 1) (some pos)
    else validRunsAux sch doc n (pos + 1) none
  | n + 1, pos, some st =>
    if allowedAt sch doc pos then validRunsAux sch doc n (pos + 1) (some st)
    else MRange.mk st pos :: validRunsAux sch doc n (pos + 1) none

/-- Modelled from the spec: `schema.getValidRanges(ranges, 'linkHref')` —
reduce the given ranges to the maximal sub-ranges on which every item may
legally carry the attribute. -/
def getValidRanges (sch : Schema) (doc : Doc) (rs : List MRange) : List MRange :=
  (rs.map (fun r => validRunsAux sch doc (r.e - r.s) r.s none)).flatten

/-- Applying `batch.setAttribute` to each range in turn. -/
def applyRanges (doc : Doc) (rs : List MRange) (v : String) : Doc :=
  rs.foldl (fun d r => setAttrRange d r v) doc

/-- Whether an index lies inside some range of the list. -/
def inRangesB (rs : List MRange) (i : Nat) : Bool :=
  rs.any (fun r => r.s ≤ i ∧ i < r.e)

/-- Modelled from the spec: `selection.getSelectedElement()` — the single
element wrapped exactly by a one-range selection, when there is one. -/
def getSelectedElement (doc : Doc) (sel : Sel) : Option Item :=
  match sel.ranges with
  | [r] =>
    if r.e = r.s + 1 then
      match doc[r.s]? with
      | some (Item.elem k a) => some (Item.elem k a)
      | _ => none
    else none
  | _ => none

/-- Whether an item `.is('image')`. -/
def isImage : Item → Bool
  | Item.elem k _ => k == "image"
  | _ => false

/-- `LinkCommand._checkEnabled()`: disabled when the selected element is an
image, otherwise the schema's `checkAttributeInSelection` answer. -/
def checkEnabled (sch : Schema) (doc : Doc) (sel : Sel) : Bool :=
  match getSelectedElement doc sel with
  | some el => if isImage el then false else sch.checkAttrInSelection doc sel
  | none => sch.checkAttrInSelection doc sel

/-- The document together with its selection. -/
structure EditorState : Type where
  doc : Doc
  sel : Sel
deriving DecidableEq, Repr

/-- One document mutation issued through a batch. -/
inductive Mutation : Type
  | setAttr (r : MRange) (v : String)
  | insert (p : Nat) (s v : String)
deriving DecidableEq, Repr

/-- A batch: the mutations issued through one `doc.batch()` handle. -/
structure Batch : Type where
  muts : List Mutation
deriving DecidableEq, Repr

/-- One enqueued change block and the batches created inside it. -/
structure ChangeBlock : Type where
  batches : List Batch
deriving DecidableEq, Repr

/-- The document effect of one mutation. -/
def applyMut (d : Doc) : Mutation → Doc
  | Mutation.setAttr r v => setAttrRange d r v
  | Mutation.insert p s v => insertText d p s v

/-- `LinkCommand.execute(href)`, instrumented with the change blocks and
batches it creates.  Mirrors the source: one enqueued block containing one
batch; collapsed selection inside a link updates the whole range found by
`findLinkRange` and selects it; collapsed selection elsewhere inserts a
text node carrying the attribute and selects it (the schema guard on
insertion, modelled from the spec, makes the rejected case a no-op);
a non-collapsed selection gets the attribute on the schema's valid
sub-ranges and is left unchanged. -/
def executeFull (sch : Schema) (st : EditorState) (href : String) :
    EditorState × List ChangeBlock :=
  let doc := st.doc
  let sel := st.sel
  if sel.isCollapsed then
    let position := sel.firstPos
    match selGetAttr doc sel with
    | some v =>
      let linkRange := findLinkRange doc position v
      (EditorState.mk (setAttrRange doc linkRange href) (Sel.mk [linkRange]),
        [ChangeBlock.mk [Batch.mk [Mutation.setAttr linkRange href]]])
    | none =>
      if sch.insertAllowedAt doc position then
        (EditorState.mk (insertText doc position href href)
            (Sel.mk [MRange.mk position (position + href.length)]),
          [ChangeBlock.mk [Batch.mk [Mutation.insert position href href]]])
      else
        (st, [ChangeBlock.mk [Batch.mk []]])
  else
    let ranges := getValidRanges sch doc sel.ranges
    (EditorState.mk (applyRanges doc ranges href) sel,
      [ChangeBlock.mk [Batch.mk (ranges.map (fun r => Mutation.setAttr r href))]])

/-- `LinkCommand.execute(href)`: the resulting editor state. -/
def execute (sch : Schema) (st : EditorState) (href : String) : EditorState :=
  (executeFull sch st href).1

/-- The command's observable fields: `value` and `isEnabled`. -/
structure CommandState : Type where
  value : Option String
  isEnabled : Bool
deriving DecidableEq, Repr

/-- `LinkCommand.refresh()`: recompute the observable fields from the
document and selection; instrumented like `executeFull`, it returns the
(unchanged) editor state and the (empty) list of change blocks it
creates. -/
def refreshFull (sch : Schema) (st : EditorState) :
    CommandState × EditorState × List ChangeBlock :=
  (CommandState.mk (selGetAttr st.doc st.sel) (checkEnabled sch st.doc st.sel),
    st, [])


theorem setAttrItem_idem (v : String) (it : Item) :
    setAttrItem v (setAttrItem v it) = setAttrItem v it := by
  cases it <;> rfl

theorem map_setAttrItem_idem (v : String) (o : Option Item) :
    Option.map (setAttrItem v) (Option.map (setAttrItem v) o) =
      Option.map (setAttrItem v) o := by
  cases o with
  | none => rfl
  | some it => simp [setAttrItem_idem]

theorem setAttrItem_comp (v : String) :
    setAttrItem v ∘ setAttrItem v = setAttrItem v :=
  funext (setAttrItem_idem v)

theorem length_setAttrFrom (v : String) (s e : Nat) (i : Nat) (l : List Item) :
    (setAttrFrom v s e i l).length = l.length := by
  induction l generalizing i with
  | nil => rfl
  | cons it rest ih => simp [setAttrFrom, ih]

theorem getElem?_setAttrFrom (v : String) (s e : Nat) (l : List Item) (i j : Nat) :
    (setAttrFrom v s e i l)[j]? =
      if s ≤ i + j ∧ i + j < e then Option.map (setAttrItem v) l[j]? else l[j]? := by
  induction l generalizing i j with
  | nil => simp [setAttrFrom]
  | cons it rest ih =>
    cases j with
    | zero =>
      simp only [setAttrFrom, List.getElem?_cons_zero, Nat.add_zero, Option.map_some']
      by_cases h : s ≤ i ∧ i < e <;> simp [h]
    | succ j =>
      simp only [setAttrFrom, List.getElem?_cons_succ]
      rw [ih (i + 1) j]
      have h : i + 1 + j = i + (j + 1) := by omega
      rw [h]

theorem length_setAttrRange (doc : Doc) (r : MRange) (v : String) :
    (setAttrRange doc r v).length = doc.length :=
  length_setAttrFrom v r.s r.e 0 doc

theorem getElem?_setAttrRange (doc : Doc) (r : MRange) (v : String) (j : Nat) :
    (setAttrRange doc r v)[j]? =
      if r.s ≤ j ∧ j < r.e then Option.map (setAttrItem v) doc[j]? else doc[j]? := by
  have h := getElem?_setAttrFrom v r.s r.e doc 0 j
  simpa using h

theorem applyRanges_cons (doc : Doc) (r : MRange) (rs : List MRange) (v : String) :
    applyRanges doc (r :: rs) v = applyRanges (setAttrRange doc r v) rs v := rfl

theorem length_applyRanges (doc : Doc) (rs : List MRange) (v : String) :
    (applyRanges doc rs v).length = doc.length := by
  induction rs generalizing doc with
  | nil => rfl
  | cons r rs ih => rw [applyRanges_cons, ih, length_setAttrRange]

theorem inRangesB_cons (r : MRange) (rs : List MRange) (i : Nat) :
    inRangesB (r :: rs) i = (decide (r.s ≤ i ∧ i < r.e) || inRangesB rs i) := rfl

theorem inRangesB_iff (rs : List MRange) (i : Nat) :
    inRangesB rs i = true ↔ ∃ r ∈ rs, r.s ≤ i ∧ i < r.e := by
  simp [inRangesB, List.any_eq_true]

theorem getElem?_applyRanges (doc : Doc) (rs : List MRange) (v : String) (j : Nat) :
    (applyRanges doc rs v)[j]? =
      if inRangesB rs j then Option.map (setAttrItem v) doc[j]? else doc[j]? := by
  induction rs generalizing doc with
  | nil => simp [applyRanges, inRangesB]
  | cons r rs ih =>
    rw [applyRanges_cons, ih, getElem?_setAttrRange, inRangesB_cons]
    by_cases h1 : inRangesB rs j <;> by_cases h2 : r.s ≤ j ∧ j < r.e <;>
      simp [h1, h2, map_setAttrItem_idem, setAttrItem_comp]

theorem inRangesB_validRunsAux (sch : Schema) (doc : Doc) (n : Nat) (i : Nat) :
    ∀ (pos : Nat) (cur : Option Nat), (∀ st, cur = some st → st ≤ pos) →
      (inRangesB (validRunsAux sch doc n pos cur) i = true ↔
        ((∃ st, cur = some st ∧ st ≤ i ∧ i < pos) ∨
          (pos ≤ i ∧ i < pos + n ∧ allowedAt sch doc i = true))) := by
  induction n with
  | zero =>
    intro pos cur _
    cases cur with
    | none =>
      constructor
      · intro hh; exact Bool.noConfusion hh
      · rintro (⟨st, hst, _, _⟩ | ⟨h1, h2, _⟩)
        · exact Option.noConfusion hst
        · omega
    | some st =>
      constructor
      · intro hh
        rw [validRunsAux, inRangesB_cons] at hh
        simp only [Bool.or_eq_true, decide_eq_true_eq] at hh
        rcases hh with ⟨h1, h2⟩ | hh2
        · exact Or.inl ⟨st, rfl, h1, h2⟩
        · exact Bool.noConfusion hh2
      · rintro (⟨st', hst, h1, h2⟩ | ⟨h1, h2, _⟩)
        · injection hst with he; subst he
          rw [validRunsAux, inRangesB_cons]
          simp only [Bool.or_eq_true, decide_eq_true_eq]
          exact Or.inl ⟨h1, h2⟩
        · omega
  | succ n ih =>
    intro pos cur hcur
    cases cur with
    | none =>
      by_cases h : allowedAt sch doc pos = true
      · rw [validRunsAux, if_pos h,
          ih (pos + 1) (some pos) (by intro st hst; injection hst with he; omega)]
        constructor
        · rintro (⟨st, hst, h1, h2⟩ | ⟨h1, h2, h3⟩)
          · injection hst with he; subst he
            have hi : i = pos := by omega
            refine Or.inr ⟨by omega, by omega, ?_⟩
            rw [hi]; exact h
          · exact Or.inr ⟨by omega, by omega, h3⟩
        · rintro (⟨st, hst, h1, h2⟩ | ⟨h1, h2, h3⟩)
          · exact Option.noConfusion hst
          · by_cases hip : i = pos
            · exact Or.inl ⟨pos, rfl, by omega, by omega⟩
            · exact Or.inr ⟨by omega, by omega, h3⟩
      · rw [validRunsAux, if_neg h,
          ih (pos + 1) none (by intro st hst; exact Option.noConfusion hst)]
        constructor
        · rintro (⟨st, hst, _, _⟩ | ⟨h1, h2, h3⟩)
          · exact Option.noConfusion hst
          · exact Or.inr ⟨by omega, by omega, h3⟩
        · rintro (⟨st, hst, _, _⟩ | ⟨h1, h2, h3⟩)
          · exact Option.noConfusion hst
          · have hne : i ≠ pos := by
              intro e; apply h; rw [← e]; exact h3
            exact Or.inr ⟨by omega, by omega, h3⟩
    | some st =>
      have hstpos : st ≤ pos := hcur st rfl
      by_cases h : allowedAt sch doc pos = true
      · rw [validRunsAux, if_pos h,
          ih (pos + 1) (some st) (by intro st' hst; injection hst with he; omega)]
        constructor
        · rintro (⟨st', hst, h1, h2⟩ | ⟨h1, h2, h3⟩)
          · injection hst with he; subst he
            by_cases hip : i < pos
            · exact Or.inl ⟨st, rfl, h1, hip⟩
            · have hi : i = pos := by omega
              refine Or.inr ⟨by omega, by omega, ?_⟩
              rw [hi]; exact h
          · exact Or.inr ⟨by omega, by omega, h3⟩
        · rintro (⟨st', hst, h1, h2⟩ | ⟨h1, h2, h3⟩)
          · injection hst with he; subst he
            exact Or.inl ⟨st, rfl, h1, by omega⟩
          · by_cases hip : i = pos
            · exact Or.inl ⟨st, rfl, by omega, by omega⟩
            · exact Or.inr ⟨by omega, by omega, h3⟩
      · rw [validRunsAux, if_neg h]
        rw [inRangesB_cons]
        simp only [Bool.or_eq_true, decide_eq_true_eq,
          ih (pos + 1) none (by intro st' hst; exact Option.noConfusion hst)]
        constructor
        · rintro (⟨h1, h2⟩ | ⟨st', hst, _, _⟩ | ⟨h1, h2, h3⟩)
          · exact Or.inl ⟨st, rfl, h1, h2⟩
          · exact Option.noConfusion hst
          · have hne : i ≠ pos := by
              intro e; apply h; rw [← e]; exact h3
            exact Or.inr ⟨by omega, by omega, h3⟩
        · rintro (⟨st', hst, h1, h2⟩ | ⟨h1, h2, h3⟩)
          · injection hst with he; subst he
            exact Or.inl ⟨h1, h2⟩
          · have hne : i ≠ pos := by
              intro e; apply h; rw [← e]; exact h3
            exact Or.inr (Or.inr ⟨by omega, by omega, h3⟩)

theorem inRangesB_getValidRanges (sch : Schema) (doc : Doc) (rs : List MRange) (i : Nat) :
    inRangesB (getValidRanges sch doc rs) i = true ↔
      (inRangesB rs i = true ∧ allowedAt sch doc i = true) := by
  rw [inRangesB_iff]
  constructor
  · rintro ⟨r', hr', h1, h2⟩
    rw [getValidRanges, List.mem_flatten] at hr'
    obtain ⟨l, hl, hr'l⟩ := hr'
    rw [List.mem_map] at hl
    obtain ⟨r, hr, rfl⟩ := hl
    have hmem : inRangesB (validRunsAux sch doc (r.e - r.s) r.s none) i = true := by
      rw [inRangesB_iff]; exact ⟨r', hr'l, h1, h2⟩
    rw [inRangesB_validRunsAux sch doc (r.e - r.s) i r.s none
      (by intro st hst; exact Option.noConfusion hst)] at hmem
    rcases hmem with ⟨st, hst, _, _⟩ | ⟨ha, hb, hc⟩
    · cases hst
    · refine ⟨?_, hc⟩
      rw [inRangesB_iff]
      exact ⟨r, hr, by omega, by omega⟩
  · rintro ⟨hin, hA⟩
    rw [inRangesB_iff] at hin
    obtain ⟨r, hr, h1, h2⟩ := hin
    have hmem : inRangesB (validRunsAux sch doc (r.e - r.s) r.s none) i = true := by
      rw [inRangesB_validRunsAux sch doc (r.e - r.s) i r.s none
        (by intro st hst; exact Option.noConfusion hst)]
      right; exact ⟨h1, by omega, hA⟩
    rw [inRangesB_iff] at hmem
    obtain ⟨r', hr', hi⟩ := hmem
    refine ⟨r', ?_, hi⟩
    rw [getValidRanges, List.mem_flatten]
    exact ⟨_, List.mem_map.mpr ⟨r, hr, rfl⟩, hr'⟩

theorem executeFull_collapsed_some (sch : Schema) (st : EditorState) (href v : String)
    (hc : st.sel.isCollapsed = true) (ha : selGetAttr st.doc st.sel = some v) :
    executeFull sch st href =
      (EditorState.mk (setAttrRange st.doc (findLinkRange st.doc st.sel.firstPos v) href)
          (Sel.mk [findLinkRange st.doc st.sel.firstPos v]),
        [ChangeBlock.mk [Batch.mk
          [Mutation.setAttr (findLinkRange st.doc st.sel.firstPos v) href]]]) := by
  rw [executeFull]
  simp only [hc, if_true, ha]

theorem executeFull_collapsed_none_ins (sch : Schema) (st : EditorState) (href : String)
    (hc : st.sel.isCollapsed = true) (ha : selGetAttr st.doc st.sel = none)
    (hi : sch.insertAllowedAt st.doc st.sel.firstPos = true) :
    executeFull sch st href =
      (EditorState.mk (insertText st.doc st.sel.firstPos href href)
          (Sel.mk [MRange.mk st.sel.firstPos (st.sel.firstPos + href.length)]),
        [ChangeBlock.mk [Batch.mk
          [Mutation.insert st.sel.firstPos href href]]]) := by
  rw [executeFull]
  simp only [hc, if_true, ha, hi]

theorem executeFull_collapsed_none_rej (sch : Schema) (st : EditorState) (href : String)
    (hc : st.sel.isCollapsed = true) (ha : selGetAttr st.doc st.sel = none)
    (hi : sch.insertAllowedAt st.doc st.sel.firstPos = false) :
    executeFull sch st href = (st, [ChangeBlock.mk [Batch.mk []]]) := by
  rw [executeFull]
  simp only [hc, if_true, ha, hi]
  simp

theorem executeFull_noncollapsed (sch : Schema) (st : EditorState) (href : String)
    (hc : st.sel.isCollapsed = false) :
    executeFull sch st href =
      (EditorState.mk
          (applyRanges st.doc (getValidRanges sch st.doc st.sel.ranges) href) st.sel,
        [ChangeBlock.mk [Batch.mk
          ((getValidRanges sch st.doc st.sel.ranges).map
            (fun r => Mutation.setAttr r href))]]) := by
  rw [executeFull]
  simp only [hc]
  simp

theorem length_mkLink (s v : String) : (mkLink s v).length = s.length := by
  rw [mkLink, List.length_map]
  rfl

theorem getElem?_mkLink (s v : String) (j : Nat) :
    (mkLink s v)[j]? = Option.map (fun c => Item.char c (some v)) s.data[j]? := by
  rw [mkLink, List.getElem?_map]

theorem length_insertText (doc : Doc) (p : Nat) (s v : String) (hp : p ≤ doc.length) :
    (insertText doc p s v).length = doc.length + s.length := by
  rw [insertText]
  simp only [List.length_append, List.length_take, List.length_drop, length_mkLink]
  omega

theorem getElem?_insertText_pre (doc : Doc) (p : Nat) (s v : String) (i : Nat)
    (hi : i < p) (hp : p ≤ doc.length) :
    (insertText doc p s v)[i]? = doc[i]? := by
  rw [insertText, List.getElem?_append_left (by rw [List.length_take]; omega)]
  rw [List.getElem?_take]
  simp [hi]

theorem getElem?_insertText_mid (doc : Doc) (p : Nat) (s v : String) (j : Nat)
    (hp : p ≤ doc.length) (hj : j < s.length) :
    (insertText doc p s v)[p + j]? =
      Option.map (fun c => Item.char c (some v)) s.data[j]? := by
  have hlen : (doc.take p).length = p := by
    rw [List.length_take]; omega
  rw [insertText, List.getElem?_append_right (by rw [hlen]; omega)]
  rw [hlen, Nat.add_sub_cancel_left]
  rw [List.getElem?_append_left (by rw [length_mkLink]; omega)]
  exact getElem?_mkLink s v j

theorem getElem?_insertText_suf (doc : Doc) (p : Nat) (s v : String) (n : Nat)
    (hp : p ≤ doc.length) (hn : p + s.length ≤ n) :
    (insertText doc p s v)[n]? = doc[n - s.length]? := by
  have hlen : (doc.take p).length = p := by
    rw [List.length_take]; omega
  rw [insertText, List.getElem?_append_right (by rw [hlen]; omega)]
  rw [List.getElem?_append_right (by rw [length_mkLink, hlen]; omega)]
  rw [List.getElem?_drop]
  congr 1
  rw [length_mkLink, hlen]
  omega

theorem getElem?_insertText_zone (doc : Doc) (p : Nat) (s v : String) (i : Nat)
    (h1 : p ≤ i) (h2 : i < p + s.length) :
    (insertText doc p s v)[i]? = none ∨
      ∃ c, (insertText doc p s v)[i]? = some (Item.char c (some v)) := by
  rw [insertText]
  have ht : (doc.take p).length ≤ i := by
    rw [List.length_take]; omega
  rw [List.getElem?_append_right ht]
  by_cases hm : i - (doc.take p).length < (mkLink s v).length
  · rw [List.getElem?_append_left hm, getElem?_mkLink]
    cases hd : s.data[i - (doc.take p).length]? with
    | none => left; rfl
    | some c => right; exact ⟨c, rfl⟩
  · rw [List.getElem?_append_right (by omega)]
    left
    apply List.getElem?_eq_none
    rw [List.length_drop]
    rw [length_mkLink] at hm
    rw [List.length_take] at ht hm ⊢
    have hs : s.length = (String.mk s.data).length := rfl
    omega

theorem walkBack_le (doc : Doc) (v : String) (p : Nat) : walkBack doc v p ≤ p := by
  induction p with
  | zero => exact Nat.le_refl 0
  | succ p ih =>
    rw [walkBack]
    cases hd : doc[p]? with
    | none => exact Nat.le_refl _
    | some it =>
      by_cases hl : isLinkChar it v = true
      · simp only [hl, if_true]
        omega
      · simp [hl]

theorem walkBack_lt (doc : Doc) (v : String) (p : Nat) (it : Item) (hp : 0 < p)
    (hd : doc[p - 1]? = some it) (hl : isLinkChar it v = true) :
    walkBack doc v p < p := by
  obtain ⟨q, rfl⟩ : ∃ q, p = q + 1 := ⟨p - 1, by omega⟩
  have hq : q + 1 - 1 = q := by omega
  rw [hq] at hd
  rw [walkBack]
  simp only [hd, hl, if_true]
  have := walkBack_le doc v q
  omega

theorem countRun_pos (v : String) (l : List Item) (it : Item)
    (hd : l[0]? = some it) (hl : isLinkChar it v = true) :
    0 < countRun v l := by
  cases l with
  | nil => exact Option.noConfusion hd
  | cons x xs =>
    rw [List.getElem?_cons_zero] at hd
    injection hd with he
    subst he
    rw [countRun]
    simp only [hl, if_true]
    omega

theorem walkFwd_ge (doc : Doc) (v : String) (p : Nat) : p ≤ walkFwd doc v p := by
  rw [walkFwd]; omega

theorem findLinkRange_nonempty (doc : Doc) (p : Nat) (v : String)
    (h : surroundAttr doc p = some v) :
    walkBack doc v p < walkFwd doc v p := by
  have hfwd : ∀ it, doc[p]? = some it → isLinkChar it v = true →
      walkBack doc v p < walkFwd doc v p := by
    intro it hd hl
    have h0 : (doc.drop p)[0]? = some it := by
      rw [List.getElem?_drop, Nat.add_zero]; exact hd
    have := countRun_pos v (doc.drop p) it h0 hl
    have := walkBack_le doc v p
    rw [walkFwd]
    omega
  rw [surroundAttr] at h
  by_cases hp : p = 0
  · subst hp
    simp only [if_pos rfl] at h
    cases hd : doc[0]? with
    | none => rw [hd] at h; exact Option.noConfusion h
    | some it =>
      cases it with
      | char c a =>
        rw [hd] at h
        simp only at h
        subst h
        exact hfwd _ hd (by simp [isLinkChar])
      | elem k a =>
        rw [hd] at h
        exact Option.noConfusion h
  · simp only [if_neg hp] at h
    cases hd : doc[p - 1]? with
    | none =>
      rw [hd] at h
      cases hd2 : doc[p]? with
      | none => rw [hd2] at h; exact Option.noConfusion h
      | some it =>
        cases it with
        | char c a =>
          rw [hd2] at h
          simp only at h
          subst h
          exact hfwd _ hd2 (by simp [isLinkChar])
        | elem k a =>
          rw [hd2] at h
          exact Option.noConfusion h
    | some it =>
      cases it with
      | char c a =>
        rw [hd] at h
        simp only at h
        subst h
        have := walkFwd_ge doc v p
        have := walkBack_lt doc v p (Item.char c (some v)) (by omega) hd
          (by simp [isLinkChar])
        omega
      | elem k a =>
        rw [hd] at h
        cases hd2 : doc[p]? with
        | none => rw [hd2] at h; exact Option.noConfusion h
        | some it2 =>
          cases it2 with
          | char c a =>
            rw [hd2] at h
            simp only at h
            subst h
            exact hfwd _ hd2 (by simp [isLinkChar])
          | elem k2 a2 =>
            rw [hd2] at h
            exact Option.noConfusion h

theorem isCollapsed_pair_false (b f : Nat) (h : b < f) :
    (Sel.mk [MRange.mk b f]).isCollapsed = false := by
  simp only [Sel.isCollapsed]
  rw [beq_eq_false_iff_ne]
  omega

theorem isCollapsed_shape (sel : Sel) (h : sel.isCollapsed = true) :
    sel = Sel.mk [MRange.mk sel.firstPos sel.firstPos] := by
  cases sel with
  | mk rs =>
    cases rs with
    | nil => exact absurd h (by rw [Sel.isCollapsed]; simp)
    | cons r rest =>
      cases rest with
      | nil =>
        rw [Sel.isCollapsed] at h
        simp only at h
        have he : r.s = r.e := eq_of_beq h
        cases r with
        | mk a b =>
          simp only at he
          subst he
          rfl
      | cons r2 rest2 => exact absurd h (by rw [Sel.isCollapsed]; simp)

theorem allowedAt_of_none (sch : Schema) (doc : Doc) (i : Nat) (h : doc[i]? = none) :
    allowedAt sch doc i = false := by
  simp only [allowedAt, h]

theorem allowedAt_congr (sch : Schema) (d1 d2 : Doc) (i j : Nat)
    (h : d1[i]? = d2[j]?) : allowedAt sch d1 i = allowedAt sch d2 j := by
  simp only [allowedAt, h]

theorem execute_collapsed_some_eq (sch : Schema) (doc : Doc) (sel : Sel) (href v : String)
    (hc : sel.isCollapsed = true) (ha : selGetAttr doc sel = some v) :
    execute sch (EditorState.mk doc sel) href =
      EditorState.mk (setAttrRange doc (findLinkRange doc sel.firstPos v) href)
        (Sel.mk [findLinkRange doc sel.firstPos v]) := by
  rw [execute, executeFull_collapsed_some sch (EditorState.mk doc sel) href v hc ha]

theorem execute_collapsed_none_ins_eq (sch : Schema) (doc : Doc) (sel : Sel) (href : String)
    (hc : sel.isCollapsed = true) (ha : selGetAttr doc sel = none)
    (hi : sch.insertAllowedAt doc sel.firstPos = true) :
    execute sch (EditorState.mk doc sel) href =
      EditorState.mk (insertText doc sel.firstPos href href)
        (Sel.mk [MRange.mk sel.firstPos (sel.firstPos + href.length)]) := by
  rw [execute, executeFull_collapsed_none_ins sch (EditorState.mk doc sel) href hc ha hi]

theorem execute_collapsed_none_rej_eq (sch : Schema) (doc : Doc) (sel : Sel) (href : String)
    (hc : sel.isCollapsed = true) (ha : selGetAttr doc sel = none)
    (hi : sch.insertAllowedAt doc sel.firstPos = false) :
    execute sch (EditorState.mk doc sel) href = EditorState.mk doc sel := by
  rw [execute, executeFull_collapsed_none_rej sch (EditorState.mk doc sel) href hc ha hi]

theorem execute_noncollapsed_eq (sch : Schema) (doc : Doc) (sel : Sel) (href : String)
    (hc : sel.isCollapsed = false) :
    execute sch (EditorState.mk doc sel) href =
      EditorState.mk (applyRanges doc (getValidRanges sch doc sel.ranges) href) sel := by
  rw [execute, executeFull_noncollapsed sch (EditorState.mk doc sel) href hc]

/-- A collapsed selection: a caret at position `p`. -/
def selCaret (p : Nat) : Sel := Sel.mk [MRange.mk p p]

/-- A schema that allows everything. -/
def schemaAll : Schema :=
  Schema.mk (fun _ => true) (fun _ _ => true) (fun _ _ => true)

/-- A schema that allows the attribute only on text and refuses every
insertion. -/
def schemaStrict : Schema :=
  Schema.mk
    (fun it => match it with | Item.char _ _ => true | Item.elem _ _ => false)
    (fun _ _ => false) (fun _ _ => true)

/-- C1: for a collapsed selection not inside attributed text, when the
schema disallows inserting the new text unit at the caret position,
`execute(value)` inserts no text and sets no attribute: the state is
returned unchanged. -/
theorem C1_collapsed_rejected_noop (sch : Schema) (doc : Doc) (sel : Sel) (href : String)
    (hc : sel.isCollapsed = true) (ha : selGetAttr doc sel = none)
    (hi : sch.insertAllowedAt doc sel.firstPos = false) :
    execute sch (EditorState.mk doc sel) href = EditorState.mk doc sel :=
  execute_collapsed_none_rej_eq sch doc sel href hc ha hi

theorem C1_collapsed_rejected_noop_witness :
    (selCaret 0).isCollapsed = true ∧
      selGetAttr [Item.elem "paragraph" none] (selCaret 0) = none ∧
      schemaStrict.insertAllowedAt [Item.elem "paragraph" none] (selCaret 0).firstPos = false ∧
      execute schemaStrict
          (EditorState.mk [Item.elem "paragraph" none] (selCaret 0)) "url" =
        EditorState.mk [Item.elem "paragraph" none] (selCaret 0) :=
  ⟨rfl, rfl, rfl,
    C1_collapsed_rejected_noop schemaStrict [Item.elem "paragraph" none]
      (selCaret 0) "url" rfl rfl rfl⟩

/-- C5: the enablement predicate is false whenever the selection resolves
to exactly one selected element of the image kind, regardless of the
schema's answer; in every other case it returns exactly the schema's
`checkAttributeInSelection` result. -/
theorem C5_enabled_image_special_case (sch : Schema) (doc : Doc) (sel : Sel) :
    (∀ a, getSelectedElement doc sel = some (Item.elem "image" a) →
        checkEnabled sch doc sel = false) ∧
      ((∀ b, getSelectedElement doc sel ≠ some (Item.elem "image" b)) →
        checkEnabled sch doc sel = sch.checkAttrInSelection doc sel) := by
  constructor
  · intro _a h
    rw [checkEnabled, h]
    simp [isImage]
  · intro h
    rw [checkEnabled]
    cases hg : getSelectedElement doc sel with
    | none => rfl
    | some el =>
      cases el with
      | char c a => simp [isImage]
      | elem k a =>
        by_cases hk : k = "image"
        · subst hk; exact absurd hg (h a)
        · simp [isImage, hk]

theorem C5_enabled_image_special_case_witness :
    checkEnabled schemaAll [Item.elem "image" none] (Sel.mk [MRange.mk 0 1]) = false ∧
      checkEnabled schemaAll [Item.char 'a' none] (Sel.mk [MRange.mk 0 1]) =
        schemaAll.checkAttrInSelection [Item.char 'a' none] (Sel.mk [MRange.mk 0 1]) :=
  ⟨(C5_enabled_image_special_case schemaAll [Item.elem "image" none]
      (Sel.mk [MRange.mk 0 1])).1 none rfl,
    (C5_enabled_image_special_case schemaAll [Item.char 'a' none]
      (Sel.mk [MRange.mk 0 1])).2 (fun a h => Option.noConfusion h)⟩

/-- C9: `refresh()` sets the observable value from the attribute at the
selection's leading edge, sets the enabled flag from the enablement
predicate, and has no other effect: the editor state is unchanged and no
change block (hence no batch) is created. -/
theorem C9_refresh_pure (sch : Schema) (st : EditorState) :
    (refreshFull sch st).1.value = surroundAttr st.doc st.sel.firstPos ∧
      (refreshFull sch st).1.isEnabled = checkEnabled sch st.doc st.sel ∧
      (refreshFull sch st).2.1 = st ∧
      (refreshFull sch st).2.2 = [] :=
  ⟨rfl, rfl, rfl, rfl⟩

/-- C6: every invocation of `execute(value)` creates exactly one enqueued
change block holding exactly one batch, and the mutations of that batch
produce exactly the document that the invocation produces. -/
theorem C6_single_batch (sch : Schema) (st : EditorState) (href : String) :
    ∃ b : Batch, (executeFull sch st href).2 = [ChangeBlock.mk [b]] ∧
      b.muts.foldl applyMut st.doc = (execute sch st href).doc := by
  by_cases hc : st.sel.isCollapsed = true
  · cases ha : selGetAttr st.doc st.sel with
    | some v =>
      refine ⟨Batch.mk [Mutation.setAttr (findLinkRange st.doc st.sel.firstPos v) href],
        ?_, ?_⟩
      · rw [executeFull_collapsed_some sch st href v hc ha]
      · rw [execute, executeFull_collapsed_some sch st href v hc ha]
        rfl
    | none =>
      by_cases hi : sch.insertAllowedAt st.doc st.sel.firstPos = true
      · refine ⟨Batch.mk [Mutation.insert st.sel.firstPos href href], ?_, ?_⟩
        · rw [executeFull_collapsed_none_ins sch st href hc ha hi]
        · rw [execute, executeFull_collapsed_none_ins sch st href hc ha hi]
          rfl
      · have hi2 : sch.insertAllowedAt st.doc st.sel.firstPos = false := by
          cases hb : sch.insertAllowedAt st.doc st.sel.firstPos
          · rfl
          · exact absurd hb hi
        refine ⟨Batch.mk [], ?_, ?_⟩
        · rw [executeFull_collapsed_none_rej sch st href hc ha hi2]
        · rw [execute, executeFull_collapsed_none_rej sch st href hc ha hi2]
          rfl
  · have hc2 : st.sel.isCollapsed = false := by
      cases hb : st.sel.isCollapsed
      · rfl
      · exact absurd hb hc
    refine ⟨Batch.mk ((getValidRanges sch st.doc st.sel.ranges).map
        (fun r => Mutation.setAttr r href)), ?_, ?_⟩
    · rw [executeFull_noncollapsed sch st href hc2]
    · rw [execute, executeFull_noncollapsed sch st href hc2]
      show ((getValidRanges sch st.doc st.sel.ranges).map
          (fun r => Mutation.setAttr r href)).foldl applyMut st.doc = _
      rw [List.foldl_map]
      rfl

/-- C2: for a collapsed selection inside text carrying the attribute with
value `v`, `execute(href)` sets the attribute to `href` over exactly the
span returned by the Range Expander for `v` (a non-collapsed span around
the caret, not just the caret, and no item outside it changes), and then
replaces the selection with exactly that single range. -/
theorem C2_collapsed_inside_link (sch : Schema) (doc : Doc) (sel : Sel) (href v : String)
    (hc : sel.isCollapsed = true) (ha : selGetAttr doc sel = some v) :
    (execute sch (EditorState.mk doc sel) href).sel =
        Sel.mk [findLinkRange doc sel.firstPos v] ∧
      (findLinkRange doc sel.firstPos v).s ≤ sel.firstPos ∧
      sel.firstPos ≤ (findLinkRange doc sel.firstPos v).e ∧
      (findLinkRange doc sel.firstPos v).s < (findLinkRange doc sel.firstPos v).e ∧
      (∀ i, (findLinkRange doc sel.firstPos v).s ≤ i →
          i < (findLinkRange doc sel.firstPos v).e →
          (execute sch (EditorState.mk doc sel) href).doc[i]? =
            Option.map (setAttrItem href) doc[i]?) ∧
      (∀ i, ¬((findLinkRange doc sel.firstPos v).s ≤ i ∧
            i < (findLinkRange doc sel.firstPos v).e) →
          (execute sch (EditorState.mk doc sel) href).doc[i]? = doc[i]?) := by
  rw [execute_collapsed_some_eq sch doc sel href v hc ha]
  refine ⟨rfl, walkBack_le doc v sel.firstPos, walkFwd_ge doc v sel.firstPos,
    findLinkRange_nonempty doc sel.firstPos v ha, ?_, ?_⟩
  · intro i h1 h2
    show (setAttrRange doc (findLinkRange doc sel.firstPos v) href)[i]? = _
    rw [getElem?_setAttrRange, if_pos ⟨h1, h2⟩]
  · intro i h
    show (setAttrRange doc (findLinkRange doc sel.firstPos v) href)[i]? = _
    rw [getElem?_setAttrRange, if_neg h]

/-- A sample document: `a`, then `bc` attributed with value `u`, then `d`. -/
def docSample : Doc :=
  [Item.char 'a' none, Item.char 'b' (some "u"), Item.char 'c' (some "u"),
    Item.char 'd' none]

theorem C2_collapsed_inside_link_witness :
    (selCaret 2).isCollapsed = true ∧
      selGetAttr docSample (selCaret 2) = some "u" ∧
      ((execute schemaAll (EditorState.mk docSample (selCaret 2)) "new").sel =
          Sel.mk [findLinkRange docSample (selCaret 2).firstPos "u"] ∧
        (findLinkRange docSample (selCaret 2).firstPos "u").s ≤ (selCaret 2).firstPos ∧
        (selCaret 2).firstPos ≤ (findLinkRange docSample (selCaret 2).firstPos "u").e ∧
        (findLinkRange docSample (selCaret 2).firstPos "u").s <
          (findLinkRange docSample (selCaret 2).firstPos "u").e ∧
        (∀ i, (findLinkRange docSample (selCaret 2).firstPos "u").s ≤ i →
            i < (findLinkRange docSample (selCaret 2).firstPos "u").e →
            (execute schemaAll (EditorState.mk docSample (selCaret 2)) "new").doc[i]? =
              Option.map (setAttrItem "new") docSample[i]?) ∧
        (∀ i, ¬((findLinkRange docSample (selCaret 2).firstPos "u").s ≤ i ∧
              i < (findLinkRange docSample (selCaret 2).firstPos "u").e) →
            (execute schemaAll (EditorState.mk docSample (selCaret 2)) "new").doc[i]? =
              docSample[i]?)) :=
  ⟨rfl, rfl,
    C2_collapsed_inside_link schemaAll docSample (selCaret 2) "new" "u" rfl rfl⟩

/-- C3: for a collapsed selection not inside attributed text, when
insertion is permitted, `execute(href)` inserts at the caret a new text
node whose content is exactly the characters of `href`, each carrying the
attribute `href`; items before the caret and after the insertion are
untouched, and the selection becomes the range exactly covering the
inserted node. -/
theorem C3_collapsed_insert (sch : Schema) (doc : Doc) (sel : Sel) (href : String)
    (hc : sel.isCollapsed = true) (ha : selGetAttr doc sel = none)
    (hi : sch.insertAllowedAt doc sel.firstPos = true)
    (hp : sel.firstPos ≤ doc.length) :
    (execute sch (EditorState.mk doc sel) href).doc.length = doc.length + href.length ∧
      (∀ j, j < href.length →
        (execute sch (EditorState.mk doc sel) href).doc[sel.firstPos + j]? =
          Option.map (fun c => Item.char c (some href)) href.data[j]?) ∧
      (∀ i, i < sel.firstPos →
        (execute sch (EditorState.mk doc sel) href).doc[i]? = doc[i]?) ∧
      (∀ n, sel.firstPos + href.length ≤ n →
        (execute sch (EditorState.mk doc sel) href).doc[n]? = doc[n - href.length]?) ∧
      (execute sch (EditorState.mk doc sel) href).sel =
        Sel.mk [MRange.mk sel.firstPos (sel.firstPos + href.length)] := by
  rw [execute_collapsed_none_ins_eq sch doc sel href hc ha hi]
  refine ⟨length_insertText doc sel.firstPos href href hp, ?_, ?_, ?_, rfl⟩
  · intro j hj
    exact getElem?_insertText_mid doc sel.firstPos href href j hp hj
  · intro i hi2
    exact getElem?_insertText_pre doc sel.firstPos href href i hi2 hp
  · intro n hn
    exact getElem?_insertText_suf doc sel.firstPos href href n hp hn

theorem C3_collapsed_insert_witness :
    (selCaret 1).isCollapsed = true ∧
      selGetAttr [Item.char 'x' none] (selCaret 1) = none ∧
      schemaAll.insertAllowedAt [Item.char 'x' none] (selCaret 1).firstPos = true ∧
      (selCaret 1).firstPos ≤ ([Item.char 'x' none] : Doc).length ∧
      ((execute schemaAll (EditorState.mk [Item.char 'x' none] (selCaret 1)) "ab").doc.length =
          ([Item.char 'x' none] : Doc).length + "ab".length ∧
        (∀ j, j < "ab".length →
          (execute schemaAll (EditorState.mk [Item.char 'x' none] (selCaret 1)) "ab").doc[(selCaret 1).firstPos + j]? =
            Option.map (fun c => Item.char c (some "ab")) "ab".data[j]?) ∧
        (∀ i, i < (selCaret 1).firstPos →
          (execute schemaAll (EditorState.mk [Item.char 'x' none] (selCaret 1)) "ab").doc[i]? =
            [Item.char 'x' none][i]?) ∧
        (∀ n, (selCaret 1).firstPos + "ab".length ≤ n →
          (execute schemaAll (EditorState.mk [Item.char 'x' none] (selCaret 1)) "ab").doc[n]? =
            [Item.char 'x' none][n - "ab".length]?) ∧
        (execute schemaAll (EditorState.mk [Item.char 'x' none] (selCaret 1)) "ab").sel =
          Sel.mk [MRange.mk (selCaret 1).firstPos ((selCaret 1).firstPos + "ab".length)]) :=
  ⟨rfl, rfl, rfl, by decide,
    C3_collapsed_insert schemaAll [Item.char 'x' none] (selCaret 1) "ab"
      rfl rfl rfl (by decide)⟩

/-- C4: for a non-collapsed selection, `execute(href)` sets the attribute
exactly on the positions inside the selection's ranges where the schema
allows the attribute; every other position is untouched, and the
selection is left unchanged. -/
theorem C4_noncollapsed (sch : Schema) (doc : Doc) (sel : Sel) (href : String)
    (hc : sel.isCollapsed = false) :
    (execute sch (EditorState.mk doc sel) href).sel = sel ∧
      (∀ i, inRangesB sel.ranges i = true → allowedAt sch doc i = true →
        (execute sch (EditorState.mk doc sel) href).doc[i]? =
          Option.map (setAttrItem href) doc[i]?) ∧
      (∀ i, ¬(inRangesB sel.ranges i = true ∧ allowedAt sch doc i = true) →
        (execute sch (EditorState.mk doc sel) href).doc[i]? = doc[i]?) := by
  rw [execute_noncollapsed_eq sch doc sel href hc]
  refine ⟨rfl, ?_, ?_⟩
  · intro i h1 h2
    show (applyRanges doc (getValidRanges sch doc sel.ranges) href)[i]? = _
    rw [getElem?_applyRanges, if_pos]
    exact (inRangesB_getValidRanges sch doc sel.ranges i).mpr ⟨h1, h2⟩
  · intro i h
    show (applyRanges doc (getValidRanges sch doc sel.ranges) href)[i]? = _
    rw [getElem?_applyRanges, if_neg]
    intro hin
    exact h ((inRangesB_getValidRanges sch doc sel.ranges i).mp hin)

/-- A document with a character, an image element and another character. -/
def docMixed : Doc :=
  [Item.char 'a' none, Item.elem "image" none, Item.char 'b' none]

theorem C4_noncollapsed_witness :
    (Sel.mk [MRange.mk 0 3]).isCollapsed = false ∧
      ((execute schemaStrict (EditorState.mk docMixed (Sel.mk [MRange.mk 0 3])) "u").sel =
          Sel.mk [MRange.mk 0 3] ∧
        (∀ i, inRangesB (Sel.mk [MRange.mk 0 3]).ranges i = true →
          allowedAt schemaStrict docMixed i = true →
          (execute schemaStrict (EditorState.mk docMixed (Sel.mk [MRange.mk 0 3])) "u").doc[i]? =
            Option.map (setAttrItem "u") docMixed[i]?) ∧
        (∀ i, ¬(inRangesB (Sel.mk [MRange.mk 0 3]).ranges i = true ∧
              allowedAt schemaStrict docMixed i = true) →
          (execute schemaStrict (EditorState.mk docMixed (Sel.mk [MRange.mk 0 3])) "u").doc[i]? =
            docMixed[i]?)) :=
  ⟨rfl, C4_noncollapsed schemaStrict docMixed (Sel.mk [MRange.mk 0 3]) "u" rfl⟩

/-- Erasing the managed attribute, leaving node kind and text content. -/
def stripAttr : Item → Item
  | Item.char c _ => Item.char c none
  | Item.elem k _ => Item.elem k none

theorem map_stripAttr_setAttrItem (v : String) (o : Option Item) :
    Option.map stripAttr (Option.map (setAttrItem v) o) = Option.map stripAttr o := by
  cases o with
  | none => rfl
  | some it => cases it <;> rfl

/-- C10: in the collapsed-inside-tagged-run strategy and in the
non-collapsed strategy (every case where a collapsed selection carries the
attribute, and every non-collapsed selection), `execute(href)` inserts no
node: the document length is preserved and every item keeps its kind and
text content, only attribute values changing. -/
theorem C10_no_insertion_outside_branch_b (sch : Schema) (doc : Doc) (sel : Sel)
    (href : String)
    (h : sel.isCollapsed = true → (selGetAttr doc sel).isSome = true) :
    (execute sch (EditorState.mk doc sel) href).doc.length = doc.length ∧
      ∀ i : Nat, Option.map stripAttr (execute sch (EditorState.mk doc sel) href).doc[i]? =
        Option.map stripAttr doc[i]? := by
  by_cases hc : sel.isCollapsed = true
  · have hs := h hc
    cases ha : selGetAttr doc sel with
    | none =>
      rw [ha] at hs
      exact Bool.noConfusion hs
    | some v =>
      rw [execute_collapsed_some_eq sch doc sel href v hc ha]
      refine ⟨length_setAttrRange doc (findLinkRange doc sel.firstPos v) href, ?_⟩
      intro i
      show Option.map stripAttr
          (setAttrRange doc (findLinkRange doc sel.firstPos v) href)[i]? = _
      rw [getElem?_setAttrRange]
      by_cases hcond : (findLinkRange doc sel.firstPos v).s ≤ i ∧
          i < (findLinkRange doc sel.firstPos v).e
      · rw [if_pos hcond, map_stripAttr_setAttrItem]
      · rw [if_neg hcond]
  · have hc2 : sel.isCollapsed = false := by
      cases hb : sel.isCollapsed
      · rfl
      · exact absurd hb hc
    rw [execute_noncollapsed_eq sch doc sel href hc2]
    refine ⟨length_applyRanges doc (getValidRanges sch doc sel.ranges) href, ?_⟩
    intro i
    show Option.map stripAttr
        (applyRanges doc (getValidRanges sch doc sel.ranges) href)[i]? = _
    rw [getElem?_applyRanges]
    by_cases hcond : inRangesB (getValidRanges sch doc sel.ranges) i = true
    · rw [if_pos hcond, map_stripAttr_setAttrItem]
    · rw [if_neg hcond]

theorem C10_no_insertion_outside_branch_b_witness :
    ((selCaret 2).isCollapsed = true →
        (selGetAttr docSample (selCaret 2)).isSome = true) ∧
      ((execute schemaAll (EditorState.mk docSample (selCaret 2)) "new").doc.length =
          docSample.length ∧
        ∀ i : Nat, Option.map stripAttr
            (execute schemaAll (EditorState.mk docSample (selCaret 2)) "new").doc[i]? =
          Option.map stripAttr docSample[i]?) :=
  ⟨fun _ => rfl,
    C10_no_insertion_outside_branch_b schemaAll docSample (selCaret 2) "new"
      (fun _ => rfl)⟩

/-- C8: after a first `execute(href)` that took the insertion strategy,
a repeated execute call with the caret placed in the inserted content (at
any position properly inside it or at its end, where the engine leaves the
caret after insertion) finds the attribute on the selection, so it takes
the collapsed-inside-tagged-run strategy, not the insertion strategy; in
particular the repeated call inserts nothing (the document length is
unchanged). -/
theorem C8_repeat_takes_branch_a (sch : Schema) (doc : Doc) (sel : Sel) (href : String)
    (hc : sel.isCollapsed = true) (ha : selGetAttr doc sel = none)
    (hi : sch.insertAllowedAt doc sel.firstPos = true)
    (hp : sel.firstPos ≤ doc.length)
    (q : Nat) (hq1 : sel.firstPos < q) (hq2 : q ≤ sel.firstPos + href.length) :
    (selCaret q).isCollapsed = true ∧
      selGetAttr (execute sch (EditorState.mk doc sel) href).doc (selCaret q) =
        some href ∧
      (execute sch (EditorState.mk
          (execute sch (EditorState.mk doc sel) href).doc (selCaret q)) href).doc.length =
        (execute sch (EditorState.mk doc sel) href).doc.length := by
  rw [execute_collapsed_none_ins_eq sch doc sel href hc ha hi]
  have hq0 : ¬q = 0 := by omega
  have hdlen : href.length = href.data.length := rfl
  have hattr : surroundAttr (insertText doc sel.firstPos href href) q = some href := by
    have hj : q - 1 - sel.firstPos < href.length := by omega
    have hmid := getElem?_insertText_mid doc sel.firstPos href href
      (q - 1 - sel.firstPos) hp hj
    have hidx : sel.firstPos + (q - 1 - sel.firstPos) = q - 1 := by omega
    rw [hidx] at hmid
    have hdata : href.data[q - 1 - sel.firstPos]? =
        some (href.data.get ⟨q - 1 - sel.firstPos, by omega⟩) :=
      List.getElem?_eq_getElem (by omega)
    rw [hdata] at hmid
    simp only [Option.map_some'] at hmid
    simp only [surroundAttr, if_neg hq0]
    rw [hmid]
  have hcol : (selCaret q).isCollapsed = true := by
    simp [selCaret, Sel.isCollapsed]
  refine ⟨hcol, hattr, ?_⟩
  rw [execute_collapsed_some_eq sch (insertText doc sel.firstPos href href)
    (selCaret q) href href hcol hattr]
  exact length_setAttrRange (insertText doc sel.firstPos href href)
    (findLinkRange (insertText doc sel.firstPos href href) (selCaret q).firstPos href)
    href

theorem C8_repeat_takes_branch_a_witness :
    (selCaret 1).isCollapsed = true ∧
      selGetAttr [Item.char 'x' none] (selCaret 1) = none ∧
      schemaAll.insertAllowedAt [Item.char 'x' none] (selCaret 1).firstPos = true ∧
      (selCaret 1).firstPos ≤ ([Item.char 'x' none] : Doc).length ∧
      (selCaret 1).firstPos < 3 ∧ 3 ≤ (selCaret 1).firstPos + "ab".length ∧
      ((selCaret 3).isCollapsed = true ∧
        selGetAttr (execute schemaAll
            (EditorState.mk [Item.char 'x' none] (selCaret 1)) "ab").doc (selCaret 3) =
          some "ab" ∧
        (execute schemaAll (EditorState.mk
            (execute schemaAll (EditorState.mk [Item.char 'x' none] (selCaret 1)) "ab").doc
            (selCaret 3)) "ab").doc.length =
          (execute schemaAll
            (EditorState.mk [Item.char 'x' none] (selCaret 1)) "ab").doc.length) :=
  ⟨rfl, rfl, rfl, by decide, by decide, by decide,
    C8_repeat_takes_branch_a schemaAll [Item.char 'x' none] (selCaret 1) "ab"
      rfl rfl rfl (by decide) 3 (by decide) (by decide)⟩

/-- C7: `execute(href)` is idempotent: executing twice in succession with
the same value from any starting document and selection yields the same
document and selection as executing once. -/
theorem C7_execute_idempotent (sch : Schema) (st : EditorState) (href : String) :
    execute sch (execute sch st href) href = execute sch st href := by
  obtain ⟨doc, sel⟩ := st
  by_cases hc : sel.isCollapsed = true
  · cases ha : selGetAttr doc sel with
    | some v =>
      rw [execute_collapsed_some_eq sch doc sel href v hc ha]
      have hlt : (findLinkRange doc sel.firstPos v).s <
          (findLinkRange doc sel.firstPos v).e :=
        findLinkRange_nonempty doc sel.firstPos v ha
      have hc2 : (Sel.mk [findLinkRange doc sel.firstPos v]).isCollapsed = false :=
        isCollapsed_pair_false (walkBack doc v sel.firstPos)
          (walkFwd doc v sel.firstPos) hlt
      have hfix : applyRanges (setAttrRange doc (findLinkRange doc sel.firstPos v) href)
          (getValidRanges sch (setAttrRange doc (findLinkRange doc sel.firstPos v) href)
            [findLinkRange doc sel.firstPos v]) href =
          setAttrRange doc (findLinkRange doc sel.firstPos v) href := by
        apply List.ext_getElem?
        intro i
        rw [getElem?_applyRanges]
        by_cases hin : inRangesB (getValidRanges sch
            (setAttrRange doc (findLinkRange doc sel.firstPos v) href)
            [findLinkRange doc sel.firstPos v]) i = true
        · rw [if_pos hin]
          have hcov := (inRangesB_getValidRanges sch _ _ i).mp hin
          have hri : (findLinkRange doc sel.firstPos v).s ≤ i ∧
              i < (findLinkRange doc sel.firstPos v).e := by
            obtain ⟨r', hr', hh⟩ := (inRangesB_iff _ i).mp hcov.1
            have h3 : r' = findLinkRange doc sel.firstPos v :=
              List.mem_singleton.mp hr'
            rw [h3] at hh
            exact hh
          have hd1 : (setAttrRange doc (findLinkRange doc sel.firstPos v) href)[i]? =
              Option.map (setAttrItem href) doc[i]? := by
            rw [getElem?_setAttrRange, if_pos hri]
          rw [hd1, map_setAttrItem_idem]
        · rw [if_neg hin]
      rw [execute_noncollapsed_eq sch
        (setAttrRange doc (findLinkRange doc sel.firstPos v) href)
        (Sel.mk [findLinkRange doc sel.firstPos v]) href hc2]
      show EditorState.mk
          (applyRanges (setAttrRange doc (findLinkRange doc sel.firstPos v) href)
            (getValidRanges sch (setAttrRange doc (findLinkRange doc sel.firstPos v) href)
              [findLinkRange doc sel.firstPos v]) href)
          (Sel.mk [findLinkRange doc sel.firstPos v]) =
        EditorState.mk (setAttrRange doc (findLinkRange doc sel.firstPos v) href)
          (Sel.mk [findLinkRange doc sel.firstPos v])
      rw [hfix]
    | none =>
      by_cases hi : sch.insertAllowedAt doc sel.firstPos = true
      · rcases Nat.eq_zero_or_pos href.length with hlen | hlen
        · have hdata : href.data = [] := by
            have h1 : href.data.length = 0 := by
              have h2 : href.length = href.data.length := rfl
              omega
            exact List.length_eq_zero.mp h1
          have hdoc : insertText doc sel.firstPos href href = doc := by
            rw [insertText, mkLink, hdata]
            simp
          have hsel : Sel.mk [MRange.mk sel.firstPos (sel.firstPos + href.length)] = sel := by
            rw [hlen, Nat.add_zero]
            exact (isCollapsed_shape sel hc).symm
          have hst1 : execute sch (EditorState.mk doc sel) href = EditorState.mk doc sel := by
            rw [execute_collapsed_none_ins_eq sch doc sel href hc ha hi, hdoc, hsel]
          rw [hst1]
          exact hst1
        · have hc2 : (Sel.mk [MRange.mk sel.firstPos
              (sel.firstPos + href.length)]).isCollapsed = false :=
            isCollapsed_pair_false sel.firstPos (sel.firstPos + href.length) (by omega)
          have hfix : applyRanges (insertText doc sel.firstPos href href)
              (getValidRanges sch (insertText doc sel.firstPos href href)
                [MRange.mk sel.firstPos (sel.firstPos + href.length)]) href =
              insertText doc sel.firstPos href href := by
            apply List.ext_getElem?
            intro i
            rw [getElem?_applyRanges]
            by_cases hin : inRangesB (getValidRanges sch
                (insertText doc sel.firstPos href href)
                [MRange.mk sel.firstPos (sel.firstPos + href.length)]) i = true
            · rw [if_pos hin]
              have hcov := (inRangesB_getValidRanges sch _ _ i).mp hin
              have hri : sel.firstPos ≤ i ∧ i < sel.firstPos + href.length := by
                obtain ⟨r', hr', hh⟩ := (inRangesB_iff _ i).mp hcov.1
                have h3 : r' = MRange.mk sel.firstPos (sel.firstPos + href.length) :=
                  List.mem_singleton.mp hr'
                rw [h3] at hh
                exact hh
              rcases getElem?_insertText_zone doc sel.firstPos href href i hri.1 hri.2
                with hz | ⟨c, hz⟩
              · exfalso
                have h4 := allowedAt_of_none sch (insertText doc sel.firstPos href href) i hz
                rw [h4] at hcov
                exact Bool.noConfusion hcov.2
              · rw [hz]
                rfl
            · rw [if_neg hin]
          rw [execute_collapsed_none_ins_eq sch doc sel href hc ha hi]
          rw [execute_noncollapsed_eq sch (insertText doc sel.firstPos href href)
            (Sel.mk [MRange.mk sel.firstPos (sel.firstPos + href.length)]) href hc2]
          show EditorState.mk
              (applyRanges (insertText doc sel.firstPos href href)
                (getValidRanges sch (insertText doc sel.firstPos href href)
                  [MRange.mk sel.firstPos (sel.firstPos + href.length)]) href)
              (Sel.mk [MRange.mk sel.firstPos (sel.firstPos + href.length)]) =
            EditorState.mk (insertText doc sel.firstPos href href)
              (Sel.mk [MRange.mk sel.firstPos (sel.firstPos + href.length)])
          rw [hfix]
      · have hi2 : sch.insertAllowedAt doc sel.firstPos = false := by
          cases hb : sch.insertAllowedAt doc sel.firstPos
          · rfl
          · exact absurd hb hi
        have hst1 := execute_collapsed_none_rej_eq sch doc sel href hc ha hi2
        rw [hst1]
        exact hst1
  · have hc2 : sel.isCollapsed = false := by
      cases hb : sel.isCollapsed
      · rfl
      · exact absurd hb hc
    have hfix : applyRanges (applyRanges doc (getValidRanges sch doc sel.ranges) href)
        (getValidRanges sch (applyRanges doc (getValidRanges sch doc sel.ranges) href)
          sel.ranges) href =
        applyRanges doc (getValidRanges sch doc sel.ranges) href := by
      apply List.ext_getElem?
      intro i
      rw [getElem?_applyRanges]
      by_cases hin : inRangesB (getValidRanges sch
          (applyRanges doc (getValidRanges sch doc sel.ranges) href) sel.ranges) i = true
      · rw [if_pos hin]
        have hcov := (inRangesB_getValidRanges sch _ _ i).mp hin
        by_cases hin0 : inRangesB (getValidRanges sch doc sel.ranges) i = true
        · have hd1 : (applyRanges doc (getValidRanges sch doc sel.ranges) href)[i]? =
              Option.map (setAttrItem href) doc[i]? := by
            rw [getElem?_applyRanges, if_pos hin0]
          rw [hd1, map_setAttrItem_idem]
        · have hd1 : (applyRanges doc (getValidRanges sch doc sel.ranges) href)[i]? =
              doc[i]? := by
            rw [getElem?_applyRanges, if_neg hin0]
          exfalso
          apply hin0
          rw [inRangesB_getValidRanges]
          refine ⟨hcov.1, ?_⟩
          rw [allowedAt_congr sch doc
            (applyRanges doc (getValidRanges sch doc sel.ranges) href) i i hd1.symm]
          exact hcov.2
      · rw [if_neg hin]
    rw [execute_noncollapsed_eq sch doc sel href hc2]
    rw [execute_noncollapsed_eq sch
      (applyRanges doc (getValidRanges sch doc sel.ranges) href) sel href hc2]
    rw [hfix]

end Link
